import Mathlib

/-!
Shallow embedding of the URL-shortener backend (src/main.py).

The MongoDB collection `urls` is modelled as a list of records in insertion
order: `find_one` returns the first document matching the filter (natural
order), `insert_one` appends, and `update_one` with an increment modifier
updates the first matching document.  Randomness (`random.choice`) is
modelled by an explicit source of draws: a function giving, for each loop
attempt and each character position, the drawn index into the alphabet.
Timestamps (`datetime.utcnow()`) are opaque `Nat` values passed in by the
caller.  The unbounded `while` loop in `shorten_url` is embedded with
explicit fuel: a result of `none` means the loop has not exited within the
given number of iterations.
-/

/-- A document of the `urls` collection: the keys written by `shorten_url`
(`short_code`, `original_url`, `created_at`, `clicks`). -/
structure Record where
  short_code : String
  original_url : String
  created_at : Nat
  clicks : Nat
deriving Repr, DecidableEq

/-- The `urls` collection, in natural (insertion) order. -/
abbrev Store := List Record

/-- `urls.find_one({"original_url": u})`: first document whose
`original_url` equals `u`. -/
def find_by_url (s : Store) (u : String) : Option Record :=
  s.find? (fun r => r.original_url = u)

/-- `urls.find_one({"short_code": c})`: first document whose `short_code`
equals `c`. -/
def find_by_code (s : Store) (c : String) : Option Record :=
  s.find? (fun r => r.short_code = c)

/-- `urls.insert_one(r)`: appends the document.  The collection has no
unique index on `short_code`, so insertion succeeds unconditionally. -/
def insert_one (s : Store) (r : Record) : Store :=
  s ++ [r]

/-- `string.ascii_letters + string.digits`: the 62-symbol alphabet. -/
def characters : List Char :=
  "abcdefghijklmnopqrstuvwxyzABCDEFGHIJKLMNOPQRSTUVWXYZ0123456789".toList

/-- `generate_short_code(length)`: one `random.choice(characters)` per
position; `rand i` is the draw for position `i`, reduced modulo the
alphabet size as an index. -/
def generate_short_code (rand : Nat → Nat) (length : Nat) : String :=
  String.mk ((List.range length).map (fun i => characters.getD (rand i % characters.length) 'a'))

/-- The candidate produced by the `k`-th call of `generate_short_code()`
inside `shorten_url`; `rands k` is the randomness of that call. -/
def genCand (rands : Nat → Nat → Nat) (k : Nat) : String :=
  generate_short_code (rands k) 6

/-- The `while await urls.find_one({"short_code": short_code})` loop of
`shorten_url`, with fuel: starting at attempt `k`, resample while the
candidate collides.  `none` means the loop has not exited within `fuel`
iterations (the source loop has no bound of its own). -/
def allocLoop (rands : Nat → Nat → Nat) (s : Store) : Nat → Nat → Option String
  | _, 0 => none
  | k, fuel + 1 =>
    if (find_by_code s (genCand rands k)).isSome then
      allocLoop rands s (k + 1) fuel
    else
      some (genCand rands k)

/-- The response model of `POST /shorten`. -/
structure URLResponse where
  short_url : String
  original_url : String
  created_at : Nat
deriving Repr, DecidableEq

/-- `shorten_url`: return the existing record's fields if a record with
this `original_url` exists; otherwise allocate a fresh code and insert a
new record with `clicks = 0` and `created_at = now`.  `none` means the
allocation loop has not exited within `fuel` iterations. -/
def shorten_url (rands : Nat → Nat → Nat) (fuel : Nat) (now : Nat) (u : String) (s : Store) :
    Option (URLResponse × Store) :=
  match find_by_url s u with
  | some existing =>
    some (⟨existing.short_code, existing.original_url, existing.created_at⟩, s)
  | none =>
    match allocLoop rands s 0 fuel with
    | none => none
    | some code =>
      let url_data : Record := ⟨code, u, now, 0⟩
      some (⟨code, u, now⟩, insert_one s url_data)

/-- `urls.update_one({"short_code": c}, {"$inc": {"clicks": 1}})`:
increment `clicks` of the first document whose `short_code` is `c`. -/
def update_one_inc (s : Store) (c : String) : Store :=
  match s with
  | [] => []
  | r :: rs =>
    if r.short_code = c then ⟨r.short_code, r.original_url, r.created_at, r.clicks + 1⟩ :: rs
    else r :: update_one_inc rs c

/-- `redirect_to_url`: look up the code; on absence raise 404 (modelled as
`none`, store untouched); otherwise increment the click count and return
the original URL read before the increment. -/
def redirect_to_url (c : String) (s : Store) : Option String × Store :=
  match find_by_code s c with
  | none => (none, s)
  | some url_data => (some url_data.original_url, update_one_inc s c)

/-- The response of `GET /stats/{short_code}`. -/
structure StatsResponse where
  short_code : String
  original_url : String
  created_at : Nat
  clicks : Nat
deriving Repr, DecidableEq

/-- `get_url_stats`: look up the code; on absence raise 404 (`none`);
otherwise return the record's fields, with no write. -/
def get_url_stats (c : String) (s : Store) : Option StatsResponse :=
  match find_by_code s c with
  | none => none
  | some r => some ⟨r.short_code, r.original_url, r.created_at, r.clicks⟩

/-- Parameters of one `POST /shorten` request in a sequential run. -/
structure SubmitReq where
  rands : Nat → Nat → Nat
  fuel : Nat
  now : Nat
  url : String

/-- The store after one submission; if the allocation loop has not exited
no new state arises and the store stays as it was. -/
def submit_step (q : SubmitReq) (s : Store) : Store :=
  match shorten_url q.rands q.fuel q.now q.url s with
  | some (_, s1) => s1
  | none => s

/-- The store after a sequence of sequential submissions. -/
def run_submits (qs : List SubmitReq) (s : Store) : Store :=
  qs.foldl (fun t q => submit_step q t) s

/-- No two records of the store share a `short_code`. -/
def codes_unique (s : Store) : Prop :=
  (s.map Record.short_code).Nodup

instance (s : Store) : Decidable (codes_unique s) := by
  unfold codes_unique; infer_instance

/-- One sequential operation against the service. -/
inductive Op where
  | submit (q : SubmitReq)
  | redirect (c : String)
  | stats (c : String)

/-- The store after one operation (`stats` is a pure read; a redirect of an
unknown code leaves the store as it was). -/
def op_step (op : Op) (s : Store) : Store :=
  match op with
  | .submit q => submit_step q s
  | .redirect c => (redirect_to_url c s).2
  | .stats _ => s

/-- `n` sequential `GET /{c}` redirect calls. -/
def redirectN (c : String) : Nat → Store → Store
  | 0, s => s
  | n + 1, s => redirectN c n (redirect_to_url c s).2

/-- Default record for positional (`getD`) access. -/
def dfl : Record := ⟨"", "", 0, 0⟩

/-- A randomness source all of whose draws are 0: every generated
candidate is the string of six repetitions of the first alphabet symbol. -/
def rands0 : Nat → Nat → Nat := fun _ _ => 0

/-- A concrete record shaped as the submission flow creates it. -/
def recA : Record := ⟨"aaaaaa", "http://a", 3, 0⟩

/-- A concrete record sharing its code with `recA`. -/
def recB2 : Record := ⟨"aaaaaa", "http://b", 5, 0⟩

theorem find?_append_left_none {α : Type} (p : α → Bool) (l₁ l₂ : List α)
    (h : l₁.find? p = none) : (l₁ ++ l₂).find? p = l₂.find? p := by
  induction l₁ with
  | nil => rfl
  | cons a t ih =>
    rw [List.find?_eq_none] at h
    have ha : ¬ p a = true := h a (by simp)
    rw [List.cons_append, List.find?_cons_of_neg _ ha]
    exact ih (List.find?_eq_none.2 fun x hx => h x (by simp [hx]))

theorem find_by_code_none_iff (s : Store) (c : String) :
    find_by_code s c = none ↔ ∀ r ∈ s, r.short_code ≠ c := by
  unfold find_by_code
  rw [List.find?_eq_none]
  simp

theorem find_by_url_insert (s : Store) (u : String) (r : Record)
    (h : find_by_url s u = none) (hr : r.original_url = u) :
    find_by_url (insert_one s r) u = some r := by
  unfold find_by_url insert_one
  unfold find_by_url at h
  rw [find?_append_left_none _ _ _ h]
  exact List.find?_cons_of_pos _ (by simp [hr])

theorem allocLoop_sound (rands : Nat → Nat → Nat) (s : Store) (fuel : Nat) :
    ∀ k c, allocLoop rands s k fuel = some c →
      find_by_code s c = none ∧ ∃ j, c = genCand rands j := by
  induction fuel with
  | zero => intro k c h; simp [allocLoop] at h
  | succ fuel ih =>
    intro k c h
    by_cases hk : (find_by_code s (genCand rands k)).isSome
    · rw [allocLoop, if_pos hk] at h
      exact ih (k + 1) c h
    · rw [allocLoop, if_neg hk] at h
      cases h
      refine ⟨?_, k, rfl⟩
      cases hf : find_by_code s (genCand rands k) with
      | none => rfl
      | some r => rw [hf] at hk; simp at hk

theorem allocLoop_complete (rands : Nat → Nat → Nat) (s : Store) :
    ∀ k base, find_by_code s (genCand rands (base + k)) = none →
      ∃ c, allocLoop rands s base (k + 1) = some c := by
  intro k
  induction k with
  | zero =>
    intro base h
    rw [Nat.add_zero] at h
    refine ⟨genCand rands base, ?_⟩
    rw [allocLoop, if_neg (by rw [h]; simp)]
  | succ k ih =>
    intro base h
    by_cases hb : (find_by_code s (genCand rands base)).isSome
    · obtain ⟨c, hc⟩ := ih (base + 1) (by rw [show base + 1 + k = base + (k + 1) from by omega]; exact h)
      exact ⟨c, by rw [allocLoop, if_pos hb]; exact hc⟩
    · exact ⟨genCand rands base, by rw [allocLoop, if_neg hb]⟩

theorem allocLoop_all_collide_none : ∀ fuel k, allocLoop rands0 [recA] k fuel = none := by
  intro fuel
  induction fuel with
  | zero => intro k; rfl
  | succ fuel ih =>
    intro k
    have hc : genCand rands0 k = "aaaaaa" := rfl
    rw [allocLoop, hc, if_pos (by rw [show find_by_code [recA] "aaaaaa" = some recA from rfl]; rfl)]
    exact ih (k + 1)

theorem shorten_url_cases (rands : Nat → Nat → Nat) (fuel now : Nat) (u : String) (s : Store) :
    shorten_url rands fuel now u s = none ∨
      (∃ r, find_by_url s u = some r ∧
        shorten_url rands fuel now u s = some (⟨r.short_code, r.original_url, r.created_at⟩, s)) ∨
      (∃ code, find_by_url s u = none ∧ find_by_code s code = none ∧
        shorten_url rands fuel now u s =
          some (⟨code, u, now⟩, insert_one s ⟨code, u, now, 0⟩)) := by
  unfold shorten_url
  cases hu : find_by_url s u with
  | some r => exact Or.inr (Or.inl ⟨r, rfl, rfl⟩)
  | none =>
    cases ha : allocLoop rands s 0 fuel with
    | none => exact Or.inl rfl
    | some code =>
      exact Or.inr (Or.inr ⟨code, rfl, (allocLoop_sound rands s fuel 0 code ha).1, rfl⟩)

theorem submit_step_result (q : SubmitReq) (s : Store) :
    submit_step q s = s ∨ ∃ code, find_by_code s code = none ∧
      submit_step q s = insert_one s ⟨code, q.url, q.now, 0⟩ := by
  unfold submit_step
  rcases shorten_url_cases q.rands q.fuel q.now q.url s with h | ⟨r, _, h⟩ | ⟨code, _, hfresh, h⟩ <;>
    rw [h]
  · exact Or.inl rfl
  · exact Or.inl rfl
  · exact Or.inr ⟨code, hfresh, rfl⟩

theorem submit_step_unique (q : SubmitReq) (s : Store) (h : codes_unique s) :
    codes_unique (submit_step q s) := by
  rcases submit_step_result q s with hs | ⟨code, hfresh, hs⟩
  · rw [hs]; exact h
  · rw [hs]
    have hnotin : ∀ r ∈ s, r.short_code ≠ code := (find_by_code_none_iff s code).1 hfresh
    unfold codes_unique at h ⊢
    unfold insert_one
    rw [List.map_append, List.nodup_append]
    refine ⟨h, by simp, ?_⟩
    intro a ha1 ha2
    simp at ha2
    obtain ⟨r, hr, rfl⟩ := List.mem_map.1 ha1
    exact hnotin r hr ha2

theorem run_submits_unique_aux (qs : List SubmitReq) :
    ∀ s, codes_unique s → codes_unique (run_submits qs s) := by
  induction qs with
  | nil => intro s h; exact h
  | cons q t ih =>
    intro s h
    exact ih (submit_step q s) (submit_step_unique q s h)

/-- Claim C1: submission is idempotent.  If a record for the URL already
exists, `shorten_url` returns that record's code, original URL and creation
time, leaves the store untouched and creates no second record; and after
any successful submission, resubmitting the same URL (with any randomness,
fuel and clock) returns the identical response and leaves the store
identical. -/
theorem shorten_url_idempotent (rands rands2 : Nat → Nat → Nat) (fuel fuel2 now now2 : Nat)
    (u : String) (s : Store) :
    (∀ r, find_by_url s u = some r →
      shorten_url rands fuel now u s = some (⟨r.short_code, r.original_url, r.created_at⟩, s)) ∧
    (∀ resp s1, shorten_url rands fuel now u s = some (resp, s1) →
      shorten_url rands2 fuel2 now2 u s1 = some (resp, s1)) := by
  constructor
  · intro r hr
    unfold shorten_url
    rw [hr]
  · intro resp s1 h
    rcases shorten_url_cases rands fuel now u s with hn | ⟨r, hr, he⟩ | ⟨code, hu, hfresh, he⟩
    · rw [h] at hn; exact Option.noConfusion hn
    · rw [h] at he
      injection he with he1
      injection he1 with hresp hs1
      subst hresp
      subst hs1
      unfold shorten_url
      rw [hr]
    · rw [h] at he
      injection he with he1
      injection he1 with hresp hs1
      subst hresp
      subst hs1
      have hf : find_by_url (insert_one s ⟨code, u, now, 0⟩) u = some ⟨code, u, now, 0⟩ :=
        find_by_url_insert s u ⟨code, u, now, 0⟩ hu rfl
      unfold shorten_url
      rw [hf]

/-- Claim C1 witness: a store holding a record for the URL; submitting it
returns that record's fields with the store unchanged, twice over. -/
theorem shorten_url_idempotent_witness :
    shorten_url rands0 1 7 "http://a" [recA] = some (⟨"aaaaaa", "http://a", 3⟩, [recA]) ∧
    shorten_url rands0 2 9 "http://a" [recA] = some (⟨"aaaaaa", "http://a", 3⟩, [recA]) :=
  ⟨(shorten_url_idempotent rands0 rands0 1 2 7 9 "http://a" [recA]).1 recA (by decide),
   (shorten_url_idempotent rands0 rands0 1 2 7 9 "http://a" [recA]).2
     ⟨"aaaaaa", "http://a", 3⟩ [recA] (by decide)⟩

/-- Claim C2: starting from the empty store, after any sequence of
sequential submissions no two records share a `short_code`; since every
prefix of a sequence is again a sequence, code uniqueness holds in every
reachable state. -/
theorem submissions_codes_unique (qs : List SubmitReq) : codes_unique (run_submits qs []) :=
  run_submits_unique_aux qs [] (by simp [codes_unique])

/-- Claim C3 counterexample: a store state and randomness on which the
allocation loop of `shorten_url` never exits, whatever the number of
iterations: the code imposes no retry ceiling and never terminates here,
contradicting termination for every store state. -/
theorem alloc_unbounded_counterexample :
    ¬ ∃ fuel, (allocLoop rands0 [recA] 0 fuel).isSome = true := by
  rintro ⟨fuel, h⟩
  rw [allocLoop_all_collide_none fuel 0] at h
  exact Bool.noConfusion h

/-- Claim C3 amended: the allocation loop has no retry ceiling and no
explicit exhaustion failure; it exits in some finite number of iterations
exactly when some sampled candidate is absent from the store, and then the
code it returns is absent from the store. -/
theorem alloc_no_ceiling (rands : Nat → Nat → Nat) (s : Store) :
    (∃ fuel c, allocLoop rands s 0 fuel = some c ∧ find_by_code s c = none) ↔
      ∃ k, find_by_code s (genCand rands k) = none := by
  constructor
  · rintro ⟨fuel, c, hc, _⟩
    obtain ⟨hfresh, j, rfl⟩ := allocLoop_sound rands s fuel 0 c hc
    exact ⟨j, hfresh⟩
  · rintro ⟨k, hk⟩
    obtain ⟨c, hc⟩ := allocLoop_complete rands s k 0 (by simpa using hk)
    exact ⟨k + 1, c, hc, (allocLoop_sound rands s (k + 1) 0 c hc).1⟩

/-- Claim C5: when a record for the code exists, the redirect operation
returns that record's stored `original_url` string. -/
theorem redirect_returns_original (c : String) (s : Store) (r : Record)
    (h : find_by_code s c = some r) :
    (redirect_to_url c s).1 = some r.original_url := by
  unfold redirect_to_url
  rw [h]

/-- Claim C5 witness: redirecting to a present code returns its URL. -/
theorem redirect_returns_original_witness :
    (redirect_to_url "aaaaaa" [recA]).1 = some "http://a" :=
  redirect_returns_original "aaaaaa" [recA] recA (by decide)

/-- Claim C6: for a code with no record, both the redirect operation and
the stats operation yield the not-found outcome and no result. -/
theorem unknown_code_not_found (c : String) (s : Store) (h : find_by_code s c = none) :
    (redirect_to_url c s).1 = none ∧ get_url_stats c s = none := by
  unfold redirect_to_url get_url_stats
  rw [h]
  exact ⟨rfl, rfl⟩

/-- Claim C6 witness: a fabricated code is not found by either endpoint. -/
theorem unknown_code_not_found_witness :
    (redirect_to_url "zzzzzz" [recA]).1 = none ∧ get_url_stats "zzzzzz" [recA] = none :=
  unknown_code_not_found "zzzzzz" [recA] (by decide)

/-- Claim C10: when the code lookup fails, the redirect operation raises
its not-found error before any store write: the whole store — every record
and every click counter — is returned unchanged. -/
theorem redirect_unknown_leaves_store (c : String) (s : Store) (h : find_by_code s c = none) :
    redirect_to_url c s = (none, s) := by
  unfold redirect_to_url
  rw [h]

/-- Claim C10 witness: a miss leaves the concrete store untouched. -/
theorem redirect_unknown_leaves_store_witness :
    redirect_to_url "zzzzz0" [recA] = (none, [recA]) :=
  redirect_unknown_leaves_store "zzzzz0" [recA] (by decide)

/-- Claim C9 counterexample: the insert operation of the store layer is a
plain insert with no uniqueness constraint on codes: inserting a second
record bearing an already-present code succeeds and yields a store whose
codes are no longer unique, contrary to a distinguishable failure. -/
theorem insert_duplicate_code_succeeds :
    recB2.short_code = recA.short_code ∧
    insert_one [recA] recB2 = [recA, recB2] ∧
    ¬ codes_unique (insert_one [recA] recB2) := by
  refine ⟨rfl, rfl, ?_⟩
  decide

/-- Claim C9 amended: uniqueness is not store-enforced — `insert_one`
succeeds even on a duplicated code — but the submission flow passes
`insert_one` only records whose code the allocation loop has just verified
absent from the store (check-then-insert). -/
theorem shorten_checked_insert (rands : Nat → Nat → Nat) (fuel now : Nat) (u : String)
    (s : Store) (resp : URLResponse) (s1 : Store)
    (h : shorten_url rands fuel now u s = some (resp, s1))
    (hu : find_by_url s u = none) :
    find_by_code s resp.short_url = none ∧
    s1 = insert_one s ⟨resp.short_url, u, now, 0⟩ := by
  rcases shorten_url_cases rands fuel now u s with hn | ⟨r, hr, he⟩ | ⟨code, _, hfresh, he⟩
  · rw [h] at hn; exact Option.noConfusion hn
  · rw [hr] at hu; exact Option.noConfusion hu
  · rw [h] at he
    injection he with he1
    injection he1 with hresp hs1
    subst hresp
    subst hs1
    exact ⟨hfresh, rfl⟩

/-- Claim C9 amended witness: a first-time submission inserts a record
whose code was absent beforehand. -/
theorem shorten_checked_insert_witness :
    find_by_code ([] : Store) (URLResponse.mk "aaaaaa" "http://a" 7).short_url = none ∧
    [(⟨"aaaaaa", "http://a", 7, 0⟩ : Record)] =
      insert_one [] ⟨(URLResponse.mk "aaaaaa" "http://a" 7).short_url, "http://a", 7, 0⟩ :=
  shorten_checked_insert rands0 1 7 "http://a" [] ⟨"aaaaaa", "http://a", 7⟩
    [⟨"aaaaaa", "http://a", 7, 0⟩] (by decide) rfl

theorem update_find (s : Store) (c : String) :
    find_by_code (update_one_inc s c) c =
      (find_by_code s c).map
        (fun r => ⟨r.short_code, r.original_url, r.created_at, r.clicks + 1⟩) := by
  induction s with
  | nil => rfl
  | cons r rs ih =>
    by_cases hr : r.short_code = c
    · simp only [update_one_inc, if_pos hr]
      unfold find_by_code
      rw [List.find?_cons_of_pos _ (by simp [hr]), List.find?_cons_of_pos _ (by simp [hr])]
      rfl
    · simp only [update_one_inc, if_neg hr]
      unfold find_by_code
      rw [List.find?_cons_of_neg _ (by simp [hr]), List.find?_cons_of_neg _ (by simp [hr])]
      exact ih

theorem redirect_counter_aux (c : String) : ∀ (n : Nat) (s : Store) (r : Record),
    find_by_code s c = some r →
    find_by_code (redirectN c n s) c =
      some ⟨r.short_code, r.original_url, r.created_at, r.clicks + n⟩ := by
  intro n
  induction n with
  | zero =>
    intro s r h
    rw [show redirectN c 0 s = s from rfl, h]
    cases r
    simp
  | succ n ih =>
    intro s r h
    have hstep : (redirect_to_url c s).2 = update_one_inc s c := by
      unfold redirect_to_url; rw [h]
    have h2 : find_by_code (update_one_inc s c) c =
        some ⟨r.short_code, r.original_url, r.created_at, r.clicks + 1⟩ := by
      rw [update_find, h]; rfl
    have h3 := ih (update_one_inc s c) _ h2
    rw [show redirectN c (n + 1) s = redirectN c n (redirect_to_url c s).2 from rfl, hstep, h3]
    rw [show r.clicks + 1 + n = r.clicks + (n + 1) from by omega]

/-- Claim C4: for a code whose record has `clicks = 0`, after `n`
sequential redirect calls with no other operation interleaved, the
record's click counter equals exactly `n` and its other fields are
unchanged. -/
theorem redirect_counter (c : String) (s : Store) (r : Record) (n : Nat)
    (h : find_by_code s c = some r) (h0 : r.clicks = 0) :
    find_by_code (redirectN c n s) c =
      some ⟨r.short_code, r.original_url, r.created_at, n⟩ := by
  have h1 := redirect_counter_aux c n s r h
  rw [h0] at h1
  simpa using h1

/-- Claim C4 witness: three redirects drive a fresh record's counter to
exactly three. -/
theorem redirect_counter_witness :
    find_by_code (redirectN "aaaaaa" 3 [recA]) "aaaaaa" =
      some ⟨"aaaaaa", "http://a", 3, 3⟩ :=
  redirect_counter "aaaaaa" [recA] recA 3 (by decide) (by decide)

theorem getD_mem (s : Store) (i : Nat) (hi : i < s.length) : s.getD i dfl ∈ s := by
  rw [show s.getD i dfl = s.get ⟨i, hi⟩ from by
    simp [List.getD_eq_getElem?_getD, List.getElem?_eq_getElem hi]]
  exact List.get_mem _ _ _

theorem update_one_inc_getD (c : String) : ∀ (s : Store) (i : Nat), i < s.length →
    ((s.getD i dfl).short_code = c → (∀ j, j < i → (s.getD j dfl).short_code ≠ c) →
      (update_one_inc s c).getD i dfl =
        ⟨(s.getD i dfl).short_code, (s.getD i dfl).original_url,
          (s.getD i dfl).created_at, (s.getD i dfl).clicks + 1⟩) ∧
    (¬ ((s.getD i dfl).short_code = c ∧ ∀ j, j < i → (s.getD j dfl).short_code ≠ c) →
      (update_one_inc s c).getD i dfl = s.getD i dfl) := by
  intro s
  induction s with
  | nil => intro i hi; exact absurd hi (by simp)
  | cons r rs ih =>
    intro i hi
    by_cases hr : r.short_code = c
    · simp only [update_one_inc, if_pos hr]
      cases i with
      | zero =>
        constructor
        · intro h1 h2
          simp
        · intro hn
          exact absurd ⟨by simpa using hr, fun j hj => absurd hj (by omega)⟩ hn
      | succ i =>
        constructor
        · intro h1 h2
          exact absurd (by simpa using hr) (h2 0 (by omega))
        · intro hn
          simp
    · simp only [update_one_inc, if_neg hr]
      cases i with
      | zero =>
        constructor
        · intro h1 _
          exact absurd (by simpa using h1) hr
        · intro hn
          simp
      | succ i =>
        have hi2 : i < rs.length := by simpa using hi
        constructor
        · intro h1 h2
          have e1 : (r :: update_one_inc rs c).getD (i + 1) dfl =
              (update_one_inc rs c).getD i dfl := List.getD_cons_succ
          rw [e1]
          have h3 := (ih i hi2).1 (by simpa using h1) (fun j hj => by
            have h4 := h2 (j + 1) (by omega)
            simpa using h4)
          simpa using h3
        · intro hn
          have e1 : (r :: update_one_inc rs c).getD (i + 1) dfl =
              (update_one_inc rs c).getD i dfl := List.getD_cons_succ
          rw [e1]
          have h3 := (ih i hi2).2 (fun hcond => hn ⟨by simpa using hcond.1, fun j hj => by
            cases j with
            | zero => intro hz; exact hr (by simpa using hz)
            | succ j =>
              have h5 := hcond.2 j (by omega)
              simpa using h5⟩)
          simpa using h3

theorem clicks_step_char (op : Op) (s : Store) (i : Nat) (hi : i < s.length) :
    ((op_step op s).getD i dfl).short_code = (s.getD i dfl).short_code ∧
    ((op_step op s).getD i dfl).original_url = (s.getD i dfl).original_url ∧
    ((op_step op s).getD i dfl).created_at = (s.getD i dfl).created_at ∧
    (s.getD i dfl).clicks ≤ ((op_step op s).getD i dfl).clicks ∧
    (((op_step op s).getD i dfl).clicks = (s.getD i dfl).clicks ∨
      ((op_step op s).getD i dfl).clicks = (s.getD i dfl).clicks + 1) ∧
    (((op_step op s).getD i dfl).clicks = (s.getD i dfl).clicks + 1 ↔
      ∃ c, op = Op.redirect c ∧ (s.getD i dfl).short_code = c ∧
        ∀ j, j < i → (s.getD j dfl).short_code ≠ c) := by
  cases op with
  | stats c =>
    have hstep : op_step (Op.stats c) s = s := rfl
    rw [hstep]
    refine ⟨rfl, rfl, rfl, le_refl _, Or.inl rfl, ?_⟩
    constructor
    · intro h; omega
    · rintro ⟨c', hc', _⟩; exact Op.noConfusion hc'
  | submit q =>
    have hstep : op_step (Op.submit q) s = submit_step q s := rfl
    rcases submit_step_result q s with hs | ⟨code, _, hs⟩
    · rw [hstep, hs]
      refine ⟨rfl, rfl, rfl, le_refl _, Or.inl rfl, ?_⟩
      constructor
      · intro h; omega
      · rintro ⟨c', hc', _⟩; exact Op.noConfusion hc'
    · rw [hstep, hs]
      have hg : (insert_one s ⟨code, q.url, q.now, 0⟩).getD i dfl = s.getD i dfl :=
        List.getD_append _ _ _ _ hi
      rw [hg]
      refine ⟨rfl, rfl, rfl, le_refl _, Or.inl rfl, ?_⟩
      constructor
      · intro h; omega
      · rintro ⟨c', hc', _⟩; exact Op.noConfusion hc'
  | redirect c =>
    have hstep : op_step (Op.redirect c) s = (redirect_to_url c s).2 := rfl
    cases hf : find_by_code s c with
    | none =>
      have h2 : (redirect_to_url c s).2 = s := by unfold redirect_to_url; rw [hf]
      rw [hstep, h2]
      refine ⟨rfl, rfl, rfl, le_refl _, Or.inl rfl, ?_⟩
      constructor
      · intro h; omega
      · rintro ⟨c', hc', hcode, _⟩
        injection hc' with hcc
        subst hcc
        exact absurd hcode ((find_by_code_none_iff s c).1 hf _ (getD_mem s i hi))
    | some r0 =>
      have h2 : (redirect_to_url c s).2 = update_one_inc s c := by
        unfold redirect_to_url; rw [hf]
      rw [hstep, h2]
      by_cases hcond : (s.getD i dfl).short_code = c ∧
          ∀ j, j < i → (s.getD j dfl).short_code ≠ c
      · rw [(update_one_inc_getD c s i hi).1 hcond.1 hcond.2]
        refine ⟨rfl, rfl, rfl, Nat.le_succ _, Or.inr rfl, ?_⟩
        constructor
        · intro _; exact ⟨c, rfl, hcond.1, hcond.2⟩
        · intro _; rfl
      · rw [(update_one_inc_getD c s i hi).2 hcond]
        refine ⟨rfl, rfl, rfl, le_refl _, Or.inl rfl, ?_⟩
        constructor
        · intro h; omega
        · rintro ⟨c', hc', h1, h3⟩
          injection hc' with hcc
          subst hcc
          exact absurd ⟨h1, h3⟩ hcond

/-- The store after a sequence of sequential operations. -/
def run_ops (ops : List Op) (s : Store) : Store :=
  ops.foldl (fun t op => op_step op t) s

theorem update_one_inc_length (s : Store) (c : String) :
    (update_one_inc s c).length = s.length := by
  induction s with
  | nil => rfl
  | cons r rs ih =>
    by_cases hr : r.short_code = c
    · simp only [update_one_inc, if_pos hr]; simp
    · simp only [update_one_inc, if_neg hr]; simpa using ih

theorem op_step_length (op : Op) (s : Store) : s.length ≤ (op_step op s).length := by
  cases op with
  | submit q =>
    have hstep : op_step (Op.submit q) s = submit_step q s := rfl
    rcases submit_step_result q s with hs | ⟨code, _, hs⟩
    · rw [hstep, hs]
    · rw [hstep, hs]; simp [insert_one]
  | redirect c =>
    have hstep : op_step (Op.redirect c) s = (redirect_to_url c s).2 := rfl
    rw [hstep]
    cases hf : find_by_code s c with
    | none =>
      rw [show (redirect_to_url c s).2 = s from by unfold redirect_to_url; rw [hf]]
    | some r0 =>
      rw [show (redirect_to_url c s).2 = update_one_inc s c from by
        unfold redirect_to_url; rw [hf]]
      rw [update_one_inc_length]
  | stats c => exact le_refl _

theorem run_ops_preserve (i : Nat) : ∀ (ops : List Op) (s : Store), i < s.length →
    ((run_ops ops s).getD i dfl).short_code = (s.getD i dfl).short_code ∧
    ((run_ops ops s).getD i dfl).original_url = (s.getD i dfl).original_url ∧
    ((run_ops ops s).getD i dfl).created_at = (s.getD i dfl).created_at ∧
    (s.getD i dfl).clicks ≤ ((run_ops ops s).getD i dfl).clicks := by
  intro ops
  induction ops with
  | nil => intro s _; exact ⟨rfl, rfl, rfl, le_refl _⟩
  | cons op t ih =>
    intro s hi
    have hstep := clicks_step_char op s i hi
    have hi2 : i < (op_step op s).length := lt_of_lt_of_le hi (op_step_length op s)
    have hrun := ih (op_step op s) hi2
    have hfold : run_ops (op :: t) s = run_ops t (op_step op s) := rfl
    rw [hfold]
    exact ⟨Eq.trans hrun.1 hstep.1, Eq.trans hrun.2.1 hstep.2.1,
      Eq.trans hrun.2.2.1 hstep.2.2.1, le_trans hstep.2.2.2.1 hrun.2.2.2⟩

/-- Claim C7: across every sequence of operations, an existing record
keeps its code, URL and creation time and its click counter never
decreases; and at each single operation the counter moves by 0 or exactly
1, moving by exactly 1 precisely when the operation is a redirect whose
code lookup finds this record (the first record matching the looked-up
code); submissions and stats reads never change it. -/
theorem clicks_monotone (s : Store) (i : Nat) (hi : i < s.length) :
    (∀ ops : List Op,
      ((run_ops ops s).getD i dfl).short_code = (s.getD i dfl).short_code ∧
      ((run_ops ops s).getD i dfl).original_url = (s.getD i dfl).original_url ∧
      ((run_ops ops s).getD i dfl).created_at = (s.getD i dfl).created_at ∧
      (s.getD i dfl).clicks ≤ ((run_ops ops s).getD i dfl).clicks) ∧
    (∀ op : Op,
      (((op_step op s).getD i dfl).clicks = (s.getD i dfl).clicks ∨
        ((op_step op s).getD i dfl).clicks = (s.getD i dfl).clicks + 1) ∧
      (((op_step op s).getD i dfl).clicks = (s.getD i dfl).clicks + 1 ↔
        ∃ c, op = Op.redirect c ∧ (s.getD i dfl).short_code = c ∧
          ∀ j, j < i → (s.getD j dfl).short_code ≠ c)) :=
  ⟨fun ops => run_ops_preserve i ops s hi,
   fun op => ⟨(clicks_step_char op s i hi).2.2.2.2.1, (clicks_step_char op s i hi).2.2.2.2.2⟩⟩

/-- Claim C7 witness: a redirect to the code of the sole record increments
its counter by exactly 1, and a three-redirect run never decreases it. -/
theorem clicks_monotone_witness :
    (([recA] : Store).getD 0 dfl).clicks ≤
      ((run_ops [Op.redirect "aaaaaa", Op.redirect "aaaaaa", Op.redirect "aaaaaa"]
        [recA]).getD 0 dfl).clicks ∧
    ((op_step (Op.redirect "aaaaaa") [recA]).getD 0 dfl).clicks =
      (([recA] : Store).getD 0 dfl).clicks + 1 :=
  ⟨((clicks_monotone [recA] 0 (by decide)).1
      [Op.redirect "aaaaaa", Op.redirect "aaaaaa", Op.redirect "aaaaaa"]).2.2.2,
   ((clicks_monotone [recA] 0 (by decide)).2 (Op.redirect "aaaaaa")).2.2
     ⟨"aaaaaa", rfl, rfl, fun j hj => absurd hj (by omega)⟩⟩

/-- Claim C8: every code the generator produces has exactly the requested
length (6 by default at every call site), and each of its symbols is drawn
from the 62-symbol alphabet of upper-case letters, lower-case letters and
digits. -/
theorem generate_short_code_shape (rand : Nat → Nat) (len : Nat) :
    (generate_short_code rand len).length = len ∧
    characters.length = 62 ∧
    ∀ ch ∈ (generate_short_code rand len).toList,
      ch ∈ characters ∧ (ch.isAlpha ∨ ch.isDigit) := by
  refine ⟨?_, by decide, ?_⟩
  · unfold generate_short_code
    simp [String.length]
  · intro ch hch
    have hch2 : ch ∈ (List.range len).map
        (fun i => characters.getD (rand i % characters.length) 'a') := hch
    obtain ⟨i, _, rfl⟩ := List.mem_map.1 hch2
    have hm : rand i % characters.length < characters.length := Nat.mod_lt _ (by decide)
    have hmem : characters.getD (rand i % characters.length) 'a' ∈ characters := by
      rw [show characters.getD (rand i % characters.length) 'a' = characters.get ⟨_, hm⟩ from by
        simp [List.getD_eq_getElem?_getD, List.getElem?_eq_getElem hm]]
      exact List.get_mem _ _ _
    refine ⟨hmem, ?_⟩
    have hall : ∀ x ∈ characters, (x.isAlpha ∨ x.isDigit) := by decide
    exact hall _ hmem

/-- Claim C8 witness: the all-zero draw gives a six-symbol code over the
alphabet. -/
theorem generate_short_code_shape_witness :
    (generate_short_code (fun _ => 0) 6).length = 6 ∧
    ('a' ∈ characters ∧ ('a'.isAlpha ∨ 'a'.isDigit)) :=
  ⟨(generate_short_code_shape (fun _ => 0) 6).1,
   (generate_short_code_shape (fun _ => 0) 6).2.2 'a' (by decide)⟩
